import Mathlib

/-!
Shallow embedding of the manifest-producer ELF analysis pipeline
(SoftengPoliTo/prin-task-2.2): DWARF language classification
(src/dwarf_analysis.rs), function discovery and API matching
(src/api_detection.rs), the elf_analysis driver
(src/bin/manifest-producer.rs), and the syscall-flow engine
(cleanup::syscall_flow, modelled from the design spec since the
cleanup module is not among the provided sources).
-/

/-! ## DWARF language classifier (src/dwarf_analysis.rs) -/

/-- `increment_language_count` from dwarf_analysis.rs:
`map.entry(language).or_insert(0) += 1` on a `HashMap<String, u32>`.
The map contents are modelled as an association list in insertion order;
the hash map's (unspecified) iteration order is a permutation of it. -/
def increment_language_count (m : List (String × Nat)) (language : String) :
    List (String × Nat) :=
  if m.any (fun p => p.1 == language) then
    m.map (fun p => if p.1 == language then (p.1, p.2 + 1) else p)
  else m ++ [(language, 1)]

/-- The tallying loop of `analyze_elf_file`: every compilation unit whose
`DW_AT_language` attribute is a language value contributes one increment, in
compilation-unit order. The input list holds those language strings. -/
def buildCounts (langs : List String) : List (String × Nat) :=
  langs.foldl increment_language_count []

/-- The special rule of `analyze_elf_file` (dwarf_analysis.rs lines 76-78):
if both `DW_LANG_C99` and `DW_LANG_Rust` are keys of the counts map, the
`DW_LANG_C99` entry is removed before the majority scan. -/
def removeC99 (m : List (String × Nat)) : List (String × Nat) :=
  if (m.any (fun p => p.1 == "DW_LANG_C99")) &&
      (m.any (fun p => p.1 == "DW_LANG_Rust")) then
    m.filter (fun p => p.1 != "DW_LANG_C99")
  else m

/-- One step of the majority scan of `analyze_elf_file`
(`if count > max_count { max_count = count; max_language = language }`). -/
def selectStep (acc : String × Nat) (p : String × Nat) : String × Nat :=
  if p.2 > acc.2 then p else acc

/-- The majority scan of `analyze_elf_file`: fold `selectStep` over the
entries in the order the hash map yields them, starting from
`max_language = ""`, `max_count = 0`. -/
def selectMax (iter : List (String × Nat)) : String × Nat :=
  iter.foldl selectStep ("", 0)

/-- `analyze_elf_file` from dwarf_analysis.rs, after the counts map has been
built and the C99/Rust rule applied: `iter` is the sequence of (language,
count) entries in the hash map's iteration order. Theorems about the
classifier constrain `iter` to be a permutation of
`removeC99 (buildCounts langs)`. The Rust function returns
`Ok(max_language)`, which is the empty string when no entry has a positive
count. -/
def analyze_elf_file (iter : List (String × Nat)) : String :=
  (selectMax iter).1

/-! ## Function discovery and API matching (src/api_detection.rs) -/

/-- A symbol-table entry with the fields `func_search` inspects. -/
structure ElfSym where
  st_type : Nat
  st_shndx : Nat
  st_name : Nat
  st_value : Nat
  st_size : Nat
deriving DecidableEq, Repr

/-- `goblin::elf::sym::STT_FUNC`. -/
def STT_FUNC : Nat := 2

/-- The `API` record (elf_utils module): canonical name and half-open
virtual-address range, as constructed by
`API::new(demangled_name, st_value, st_value + st_size)`. -/
structure API where
  name : String
  start_addr : Nat
  end_addr : Nat
deriving DecidableEq, Repr

/-- `get_name_sym` from api_detection.rs: `elf.strtab.get_at(st_name)`.
The string table is modelled as a partial map from offsets to names. -/
def get_name_sym (strtab : Nat → Option String) (s : ElfSym) : Option String :=
  strtab s.st_name

/-- `func_search` from api_detection.rs: walk the symbol table in order;
keep entries with `st_type() == STT_FUNC && st_shndx != 0` whose name
resolves from the string table; demangle the name and record the range
`[st_value, st_value + st_size)`. `demangle` models
`cleanup::demangle_func_name` at the classified language.
Modelled from the spec: the cleanup module is not among the provided
sources; spec section 4.3 specifies the name normalizer as a deterministic,
pure, total function (an unrecognized name is returned unchanged, never an
error), so demangling is an arbitrary total function here. -/
def func_search (demangle : String → String) (strtab : Nat → Option String) :
    List ElfSym → List API
  | [] => []
  | s :: rest =>
    if s.st_type == STT_FUNC && s.st_shndx != 0 then
      match get_name_sym strtab s with
      | some nm =>
          API.mk (demangle nm) s.st_value (s.st_value + s.st_size) ::
            func_search demangle strtab rest
      | none => func_search demangle strtab rest
    else func_search demangle strtab rest

/-- Rust `str::contains`: substring containment. -/
def strContains (s pat : String) : Bool :=
  decide (pat.data <:+: s.data)

/-- `extract_api` from api_detection.rs: return the first discovered `API`
whose name contains the requested name as a substring, `none` otherwise. -/
def extract_api (name : String) : List API → Option API
  | [] => none
  | api :: rest =>
    if strContains api.name name then some api else extract_api name rest

/-! ## Pipeline driver (src/bin/manifest-producer.rs) -/

/-- The error kinds of `elf_analysis` (error module): `Error::DebugInfo`,
`Error::LangNotFound`, `Error::FuncListEmpty`, and the per-function
failures surfaced by `code_section` / `syscall_flow`. -/
inductive Err where
  | DebugInfo
  | LangNotFound
  | FuncListEmpty
  | RegionResolution
  | DecodeAnomaly
deriving DecidableEq, Repr

/-- The facts `elf_analysis` extracts from the parsed ELF file: the
stripped flag (`is_stripped`), the per-compilation-unit language-attribute
values in order (consumed by `dwarf_analysis`), the symbol table and string
table (consumed by `func_search`), and the linkage facts `is_static` /
`is_pie`. -/
structure ElfInput where
  stripped : Bool
  dwarfLangs : List String
  syms : List ElfSym
  strtab : Nat → Option String
  link : Bool
  pie : Bool

/-- The language-tag extraction in `elf_analysis` (manifest-producer.rs
lines 34-37): keep the part of the classifier result after the
`DW_LANG_` tag, or fail when the result does not start with it. -/
def langTagRest (s : String) : Option String :=
  if "DW_LANG_".data.isPrefixOf s.data then some (String.mk (s.data.drop 8))
  else none

/-- The per-function loop of `elf_analysis` (manifest-producer.rs lines
46-49): `let sys = code_section(..)?; syscall_flow(..)?;` for each
discovered function, in order; both `?` operators propagate a failure
out of the whole loop. -/
def analysisLoop (cs : API → Except Err (List String))
    (sf : API → List String → Except Err Unit) : List API → Except Err Unit
  | [] => Except.ok ()
  | f :: rest => do
      let sys ← cs f
      sf f sys
      analysisLoop cs sf rest

/-- `elf_analysis` from manifest-producer.rs. Stage functions that live in
modules not among the provided sources (`demangle` for
`cleanup::demangle_func_name`, `code_section` for
`code_section_handler::code_section`, `syscall_flow_stage` for
`cleanup::syscall_flow`) are parameters; `iter` is the classifier's hash
iteration order as in `analyze_elf_file`. The API-matching and
manifest-writing calls are commented out in the source, so `api_list` and
`path` are never read. -/
def elf_analysis (inp : ElfInput) (iter : List (String × Nat))
    (demangle : String → String → String)
    (code_section : API → Bool → Except Err (List String))
    (syscall_flow_stage : API → List String → String → Except Err Unit)
    (api_list : List String) (path : String) : Except Err Unit :=
  if inp.stripped then Except.error Err.DebugInfo
  else
    match langTagRest (analyze_elf_file iter) with
    | none => Except.error Err.LangNotFound
    | some lang =>
      let func_found := func_search (fun n => demangle n lang) inp.strtab inp.syms
      if func_found.isEmpty then Except.error Err.FuncListEmpty
      else
        analysisLoop (fun f => code_section f inp.link)
          (fun f sys => syscall_flow_stage f sys lang) func_found

/-! ## Syscall-Flow Engine (cleanup::syscall_flow)

Modelled from the spec: the cleanup module is not among the provided
sources. Spec section 4.6 prescribes a work-queue algorithm with a
visited-set guard over the binary's locally defined functions, whose
result is "the union of all directly detected syscalls and all syscalls
transitively reachable through visited local calls"; the visited set is
realized here as a bounded saturation of the local-call successor map,
which the visited-set guard makes equivalent to work-queue exhaustion. -/

/-- A locally defined function as the Syscall-Flow Engine sees it: its
start address, the syscalls directly detected in its code (trap
instructions and resolved dynamic-import wrappers), and the call targets
of its direct local calls. -/
structure LocalFunc where
  addr : Nat
  directSyscalls : List String
  localCalls : List Nat
deriving DecidableEq, Repr

/-- Look up a locally defined function by start address. -/
def findFunc (prog : List LocalFunc) (a : Nat) : Option LocalFunc :=
  prog.find? (fun f => f.addr == a)

/-- The local-call successors of address `a`: call targets that land on a
function in the binary's own defined-function set (spec section 4.6 step 2:
only such calls are pushed on the work queue). -/
def callees (prog : List LocalFunc) (a : Nat) : List Nat :=
  match findFunc prog a with
  | some f => f.localCalls.filter (fun c => (findFunc prog c).isSome)
  | none => []

/-- The syscalls directly detected in the function at address `a`
(empty for an address with no local function). -/
def directsOf (prog : List LocalFunc) (a : Nat) : Finset String :=
  match findFunc prog a with
  | some f => f.directSyscalls.toFinset
  | none => ∅

/-- One saturation step of the visited set: add the local callees of every
visited function. -/
def stepSet (prog : List LocalFunc) (vs : Finset Nat) : Finset Nat :=
  vs ∪ vs.biUnion (fun a => (callees prog a).toFinset)

/-- Iterate the saturation step. -/
def iterStep (prog : List LocalFunc) : Nat → Finset Nat → Finset Nat
  | 0, vs => vs
  | n + 1, vs => iterStep prog n (stepSet prog vs)

/-- The visited set produced for an analysis rooted at address `a`:
`prog.length + 1` saturation steps, enough to reach the fixpoint of
`stepSet` (work-queue exhaustion). -/
def visitedFrom (prog : List LocalFunc) (a : Nat) : Finset Nat :=
  iterStep prog (prog.length + 1) {a}

/-- `cleanup::syscall_flow`, modelled from the spec: the final Syscall Set
of the function at address `a` is the union of the directly detected
syscalls of every visited local function. -/
def syscall_flow (prog : List LocalFunc) (a : Nat) : Finset String :=
  (visitedFrom prog a).biUnion (directsOf prog)

/-- The Call Edge relation restricted to local calls: the function at `a`
directly calls the locally defined function at `b`. -/
def CallEdge (prog : List LocalFunc) (a b : Nat) : Prop :=
  b ∈ callees prog a

/-- Transitive reachability through local calls. -/
def Reaches (prog : List LocalFunc) : Nat → Nat → Prop :=
  Relation.ReflTransGen (CallEdge prog)

/-! ## Lemmas about the syscall-flow saturation -/

/-- The start addresses of the binary's defined functions. -/
def progAddrs (prog : List LocalFunc) : Finset Nat :=
  (prog.map LocalFunc.addr).toFinset

lemma callee_mem_progAddrs {prog : List LocalFunc} {a c : Nat}
    (h : c ∈ callees prog a) : c ∈ progAddrs prog := by
  unfold callees at h
  cases hf : findFunc prog a with
  | none => simp [hf] at h
  | some f =>
    rw [hf] at h
    have hc := (List.mem_filter.mp h).2
    rw [Option.isSome_iff_exists] at hc
    obtain ⟨g, hg⟩ := hc
    have hmem := List.find?_some hg
    have hgm := List.mem_of_find?_eq_some hg
    simp only [beq_iff_eq] at hmem
    subst hmem
    exact List.mem_toFinset.mpr (List.mem_map_of_mem LocalFunc.addr hgm)

lemma subset_stepSet (prog : List LocalFunc) (vs : Finset Nat) :
    vs ⊆ stepSet prog vs :=
  Finset.subset_union_left

lemma stepSet_subset_of_subset {prog : List LocalFunc} {vs B : Finset Nat}
    (hB : progAddrs prog ⊆ B) (h : vs ⊆ B) : stepSet prog vs ⊆ B := by
  apply Finset.union_subset h
  apply Finset.biUnion_subset.mpr
  intro a _
  intro c hc
  exact hB (callee_mem_progAddrs (List.mem_toFinset.mp hc))

lemma iterStep_succ_eq (prog : List LocalFunc) (n : Nat) (vs : Finset Nat) :
    iterStep prog (n + 1) vs = stepSet prog (iterStep prog n vs) := by
  induction n generalizing vs with
  | zero => rfl
  | succ m ih =>
    show iterStep prog (m + 1) (stepSet prog vs) = _
    rw [ih (stepSet prog vs)]
    rfl

lemma subset_iterStep (prog : List LocalFunc) (n : Nat) (vs : Finset Nat) :
    vs ⊆ iterStep prog n vs := by
  induction n generalizing vs with
  | zero => exact Finset.Subset.refl vs
  | succ m ih =>
    exact (subset_stepSet prog vs).trans (ih (stepSet prog vs))

lemma iterStep_subset_bound {prog : List LocalFunc} {B : Finset Nat}
    (hB : progAddrs prog ⊆ B) :
    ∀ n (vs : Finset Nat), vs ⊆ B → iterStep prog n vs ⊆ B := by
  intro n
  induction n with
  | zero => intro vs h; exact h
  | succ m ih =>
    intro vs h
    exact ih (stepSet prog vs) (stepSet_subset_of_subset hB h)

lemma iterStep_add (prog : List LocalFunc) (m n : Nat) (vs : Finset Nat) :
    iterStep prog (m + n) vs = iterStep prog m (iterStep prog n vs) := by
  induction n generalizing vs with
  | zero => rfl
  | succ k ih =>
    have : m + (k + 1) = (m + k) + 1 := by omega
    rw [this]
    show iterStep prog (m + k) (stepSet prog vs) = _
    rw [ih (stepSet prog vs)]
    rfl

lemma fixpoint_stable {prog : List LocalFunc} {vs : Finset Nat}
    (h : stepSet prog vs = vs) : ∀ n, iterStep prog n vs = vs := by
  intro n
  induction n with
  | zero => rfl
  | succ m ih =>
    show iterStep prog m (stepSet prog vs) = vs
    rw [h, ih]

lemma card_progAddrs_le (prog : List LocalFunc) :
    (progAddrs prog).card ≤ prog.length := by
  have h := List.toFinset_card_le (prog.map LocalFunc.addr)
  simpa using h


/-- After `prog.length + 1` saturation steps the visited set is a fixpoint
of `stepSet`: the work queue is exhausted. -/
lemma stepSet_visitedFrom (prog : List LocalFunc) (a : Nat) :
    stepSet prog (visitedFrom prog a) = visitedFrom prog a := by
  classical
  unfold visitedFrom
  set N := prog.length + 1 with hN
  set S : Nat → Finset Nat := fun k => iterStep prog k {a} with hS
  set B : Finset Nat := insert a (progAddrs prog) with hB
  have hBsub : progAddrs prog ⊆ B := Finset.subset_insert a _
  have haB : ({a} : Finset Nat) ⊆ B :=
    Finset.singleton_subset_iff.mpr (Finset.mem_insert_self a _)
  have hSB : ∀ k, S k ⊆ B := fun k => iterStep_subset_bound hBsub k {a} haB
  have hcardB : B.card ≤ N := by
    have h1 : B.card ≤ (progAddrs prog).card + 1 := Finset.card_insert_le a _
    have h2 := card_progAddrs_le prog
    omega
  have hseq : ∀ m, S (m + 1) = stepSet prog (S m) := fun m =>
    iterStep_succ_eq prog m {a}
  have hmono : ∀ k, S k ⊆ S (k + 1) := by
    intro k
    rw [hseq k]
    exact subset_stepSet prog _
  show stepSet prog (S N) = S N
  by_cases hfix : ∃ k, k < N ∧ stepSet prog (S k) = S k
  · obtain ⟨k, hk, hfk⟩ := hfix
    have hstable : ∀ n, iterStep prog n (S k) = S k := fixpoint_stable hfk
    have hNk : S N = S k := by
      have hsplit : N = (N - k) + k := by omega
      show iterStep prog N {a} = S k
      rw [hsplit, iterStep_add]
      exact hstable (N - k)
    rw [hNk, hfk]
  · push_neg at hfix
    exfalso
    have hgrow : ∀ k, k ≤ N → k + 1 ≤ (S k).card := by
      intro k
      induction k with
      | zero =>
        intro _
        have h0 : S 0 = {a} := rfl
        rw [h0, Finset.card_singleton]
      | succ m ih =>
        intro hm
        have hmN : m < N := by omega
        have hne : stepSet prog (S m) ≠ S m := hfix m hmN
        have hss : S m ⊂ S (m + 1) := by
          refine Finset.ssubset_iff_subset_ne.mpr ⟨hmono m, ?_⟩
          intro he
          apply hne
          rw [← hseq m]
          exact he.symm
        have hcard := Finset.card_lt_card hss
        have ihm := ih (by omega)
        omega
    have hfin := hgrow N (le_refl N)
    have hle : (S N).card ≤ B.card := Finset.card_le_card (hSB N)
    omega

lemma iterStep_sound {prog : List LocalFunc} {a : Nat} :
    ∀ (n : Nat) (vs : Finset Nat), (∀ x ∈ vs, Reaches prog a x) →
      ∀ b ∈ iterStep prog n vs, Reaches prog a b := by
  intro n
  induction n with
  | zero => intro vs h b hb; exact h b hb
  | succ m ih =>
    intro vs h b hb
    rw [show m + 1 = m + 1 from rfl] at hb
    have hb' : b ∈ iterStep prog m (stepSet prog vs) := hb
    refine ih (stepSet prog vs) ?_ b hb'
    intro x hx
    rcases Finset.mem_union.mp hx with hxv | hxc
    · exact h x hxv
    · obtain ⟨y, hy, hxy⟩ := Finset.mem_biUnion.mp hxc
      exact Relation.ReflTransGen.tail (h y hy) (List.mem_toFinset.mp hxy)

lemma mem_visitedFrom_self (prog : List LocalFunc) (a : Nat) :
    a ∈ visitedFrom prog a :=
  subset_iterStep prog (prog.length + 1) {a} (Finset.mem_singleton_self a)

lemma visitedFrom_closed {prog : List LocalFunc} {a b c : Nat}
    (hb : b ∈ visitedFrom prog a) (hc : c ∈ callees prog b) :
    c ∈ visitedFrom prog a := by
  rw [← stepSet_visitedFrom prog a]
  apply Finset.mem_union_right
  exact Finset.mem_biUnion.mpr ⟨b, hb, List.mem_toFinset.mpr hc⟩

lemma reaches_mem_visitedFrom {prog : List LocalFunc} {a b : Nat}
    (h : Reaches prog a b) : b ∈ visitedFrom prog a := by
  induction h with
  | refl => exact mem_visitedFrom_self prog a
  | tail _ hedge ih => exact visitedFrom_closed ih hedge

lemma mem_visitedFrom_iff {prog : List LocalFunc} {a b : Nat} :
    b ∈ visitedFrom prog a ↔ Reaches prog a b := by
  constructor
  · intro h
    refine iterStep_sound (prog.length + 1) {a} ?_ b h
    intro x hx
    rw [Finset.mem_singleton] at hx
    rw [hx]
    exact Relation.ReflTransGen.refl
  · exact reaches_mem_visitedFrom

lemma mem_syscall_flow_iff {prog : List LocalFunc} {a : Nat} {s : String} :
    s ∈ syscall_flow prog a ↔ ∃ b, Reaches prog a b ∧ s ∈ directsOf prog b := by
  unfold syscall_flow
  rw [Finset.mem_biUnion]
  constructor
  · rintro ⟨b, hb, hs⟩
    exact ⟨b, mem_visitedFrom_iff.mp hb, hs⟩
  · rintro ⟨b, hb, hs⟩
    exact ⟨b, mem_visitedFrom_iff.mpr hb, hs⟩

/-! ## Lemmas about the classifier majority scan -/

lemma foldl_selectStep_mem (m : List (String × Nat)) (acc : String × Nat) :
    m.foldl selectStep acc = acc ∨ m.foldl selectStep acc ∈ m := by
  induction m generalizing acc with
  | nil => exact Or.inl rfl
  | cons p rest ih =>
    rcases ih (selectStep acc p) with h | h
    · rw [List.foldl_cons, h]
      unfold selectStep
      by_cases hc : p.2 > acc.2
      · simp only [hc, if_pos]
        exact Or.inr (List.mem_cons_self p rest)
      · simp only [hc, if_neg]
        exact Or.inl rfl
    · exact Or.inr (List.mem_cons_of_mem p h)

lemma acc_le_foldl_selectStep (m : List (String × Nat)) (acc : String × Nat) :
    acc.2 ≤ (m.foldl selectStep acc).2 := by
  induction m generalizing acc with
  | nil => exact le_refl _
  | cons p rest ih =>
    rw [List.foldl_cons]
    refine le_trans ?_ (ih (selectStep acc p))
    unfold selectStep
    by_cases hc : p.2 > acc.2
    · rw [if_pos hc]
      omega
    · rw [if_neg hc]

lemma foldl_selectStep_ge (m : List (String × Nat)) (acc : String × Nat) :
    ∀ p ∈ m, p.2 ≤ (m.foldl selectStep acc).2 := by
  induction m generalizing acc with
  | nil => intro p hp; cases hp
  | cons q rest ih =>
    intro p hp
    rw [List.foldl_cons]
    rcases List.mem_cons.mp hp with h | h
    · subst h
      refine le_trans ?_ (acc_le_foldl_selectStep rest (selectStep acc p))
      unfold selectStep
      by_cases hc : p.2 > acc.2
      · rw [if_pos hc]
      · rw [if_neg hc]
        omega
    · exact ih (selectStep acc q) p h

/-- The majority scan returns an entry of the counts list with maximal
count, provided the list is nonempty and every count is positive. -/
lemma selectMax_spec {m : List (String × Nat)} (hne : m ≠ [])
    (hpos : ∀ p ∈ m, 1 ≤ p.2) :
    selectMax m ∈ m ∧ ∀ p ∈ m, p.2 ≤ (selectMax m).2 := by
  have hge := foldl_selectStep_ge m ("", 0)
  rcases foldl_selectStep_mem m ("", 0) with h | h
  · exfalso
    obtain ⟨q, hq⟩ := List.exists_mem_of_ne_nil m hne
    have h1 := hpos q hq
    have h2 := hge q hq
    rw [h] at h2
    have h3 : q.2 ≤ 0 := h2
    omega
  · exact ⟨h, hge⟩

lemma increment_pos {m : List (String × Nat)} (l : String)
    (h : ∀ p ∈ m, 1 ≤ p.2) :
    ∀ p ∈ increment_language_count m l, 1 ≤ p.2 := by
  intro p hp
  unfold increment_language_count at hp
  by_cases hc : m.any (fun p => p.1 == l) = true
  · rw [if_pos hc] at hp
    obtain ⟨q, hq, hqp⟩ := List.mem_map.mp hp
    by_cases he : (q.1 == l) = true
    · rw [if_pos he] at hqp
      rw [← hqp]
      simp
    · rw [if_neg he] at hqp
      rw [← hqp]
      exact h q hq
  · rw [if_neg hc] at hp
    rcases List.mem_append.mp hp with h1 | h1
    · exact h p h1
    · simp at h1
      simp [h1]

lemma foldl_increment_pos (langs : List String) :
    ∀ (m : List (String × Nat)), (∀ p ∈ m, 1 ≤ p.2) →
      ∀ p ∈ langs.foldl increment_language_count m, 1 ≤ p.2 := by
  induction langs with
  | nil => intro m h p hp; exact h p hp
  | cons l rest ih =>
    intro m h p hp
    exact ih (increment_language_count m l) (increment_pos l h) p hp

lemma buildCounts_pos (langs : List String) :
    ∀ p ∈ buildCounts langs, 1 ≤ p.2 :=
  foldl_increment_pos langs [] (by intro p hp; cases hp)

lemma removeC99_subset {m : List (String × Nat)} :
    ∀ p ∈ removeC99 m, p ∈ m := by
  intro p hp
  unfold removeC99 at hp
  by_cases hc : ((m.any (fun p => p.1 == "DW_LANG_C99")) &&
      (m.any (fun p => p.1 == "DW_LANG_Rust"))) = true
  · rw [if_pos hc] at hp
    exact List.mem_of_mem_filter hp
  · rw [if_neg hc] at hp
    exact hp

/-! ## Lemmas about the per-function analysis loop -/

lemma analysisLoop_append_error {cs : API → Except Err (List String)}
    {sf : API → List String → Except Err Unit}
    {pre : List API} {f : API} {post : List API} {e : Err}
    (hpre : ∀ g ∈ pre, ∃ s, cs g = Except.ok s ∧ sf g s = Except.ok ())
    (hf : cs f = Except.error e) :
    analysisLoop cs sf (pre ++ f :: post) = Except.error e := by
  induction pre with
  | nil =>
    show analysisLoop cs sf (f :: post) = Except.error e
    unfold analysisLoop
    rw [hf]
    rfl
  | cons g rest ih =>
    obtain ⟨s, hs1, hs2⟩ := hpre g (List.mem_cons_self g rest)
    show analysisLoop cs sf (g :: (rest ++ f :: post)) = Except.error e
    unfold analysisLoop
    rw [hs1]
    show (sf g s >>= fun _ => analysisLoop cs sf (rest ++ f :: post)) = _
    rw [hs2]
    show analysisLoop cs sf (rest ++ f :: post) = Except.error e
    exact ih (fun g' hg' => hpre g' (List.mem_cons_of_mem g hg'))

/-! ## Lemmas about function discovery and API matching -/

lemma func_search_eq_filter_map (dm : String → String)
    (strtab : Nat → Option String) (syms : List ElfSym) :
    func_search dm strtab syms =
      (syms.filter (fun s => s.st_type == STT_FUNC && s.st_shndx != 0 &&
          (get_name_sym strtab s).isSome)).map
        (fun s => API.mk (dm ((get_name_sym strtab s).getD ""))
          s.st_value (s.st_value + s.st_size)) := by
  induction syms with
  | nil => rfl
  | cons s rest ih =>
    unfold func_search
    rw [List.filter_cons]
    by_cases h1 : (s.st_type == STT_FUNC && s.st_shndx != 0) = true
    · cases hname : get_name_sym strtab s with
      | some nm => simp [h1, hname, ih]
      | none => simp [h1, hname, ih]
    · have h1f : (s.st_type == STT_FUNC && s.st_shndx != 0) = false := by
        revert h1
        cases (s.st_type == STT_FUNC && s.st_shndx != 0) <;> simp
      simp [h1f, ih]

lemma extract_api_eq_find (name : String) (l : List API) :
    extract_api name l = l.find? (fun api => strContains api.name name) := by
  induction l with
  | nil => rfl
  | cons api rest ih =>
    unfold extract_api
    rw [List.find?_cons]
    by_cases h : strContains api.name name = true
    · rw [if_pos h, h]
    · have hf : strContains api.name name = false := by
        revert h; cases strContains api.name name <;> simp
      rw [if_neg h, hf]
      exact ih

/-! ## Claims -/

/-- C2: for every analyzed function, the final Syscall Set computed by the
syscall-flow engine is exactly the union of the syscalls directly detected
in the function's own code and the syscalls of every local function
transitively reachable from it through local calls; in particular, if A
directly calls local function B and B contains a direct syscall S, then S
is in A's final Syscall Set. -/
theorem claim_C2_transitive_syscall_set (prog : List LocalFunc) (a : Nat) :
    (∀ s, s ∈ syscall_flow prog a ↔
        s ∈ directsOf prog a ∨ ∃ b, Reaches prog a b ∧ s ∈ directsOf prog b)
    ∧ ∀ b s, CallEdge prog a b → s ∈ directsOf prog b →
        s ∈ syscall_flow prog a := by
  constructor
  · intro s
    rw [mem_syscall_flow_iff]
    constructor
    · rintro ⟨b, hb, hs⟩
      exact Or.inr ⟨b, hb, hs⟩
    · rintro (hs | ⟨b, hb, hs⟩)
      · exact ⟨a, Relation.ReflTransGen.refl, hs⟩
      · exact ⟨b, hb, hs⟩
  · intro b s hedge hs
    rw [mem_syscall_flow_iff]
    exact ⟨b, Relation.ReflTransGen.single hedge, hs⟩

/-- C3: whenever both DW_LANG_C99 and DW_LANG_Rust appear among the keys of
the compilation-unit counts, the C99 entry is removed before the majority
scan; consequently for counts C99 = 5 and Rust = 5 the classifier returns
DW_LANG_Rust, whatever iteration order the hash map yields. -/
theorem claim_C3_c99_discarded (m iter : List (String × Nat))
    (h1 : m.any (fun p => p.1 == "DW_LANG_C99") = true)
    (h2 : m.any (fun p => p.1 == "DW_LANG_Rust") = true)
    (hperm : iter.Perm (removeC99 (buildCounts
        (List.replicate 5 "DW_LANG_C99" ++ List.replicate 5 "DW_LANG_Rust")))) :
    removeC99 m = m.filter (fun p => p.1 != "DW_LANG_C99")
    ∧ analyze_elf_file iter = "DW_LANG_Rust" := by
  constructor
  · unfold removeC99
    rw [h1, h2]
    rfl
  · have hr : removeC99 (buildCounts
        (List.replicate 5 "DW_LANG_C99" ++ List.replicate 5 "DW_LANG_Rust"))
        = [("DW_LANG_Rust", 5)] := by decide
    rw [hr] at hperm
    rw [List.perm_singleton.mp hperm]
    rfl

/-- Witness for C3 at the concrete counts of the claim. -/
theorem claim_C3_witness :
    removeC99 [("DW_LANG_C99", 5), ("DW_LANG_Rust", 5)]
        = [("DW_LANG_C99", 5), ("DW_LANG_Rust", 5)].filter
            (fun p => p.1 != "DW_LANG_C99")
    ∧ analyze_elf_file [("DW_LANG_Rust", 5)] = "DW_LANG_Rust" :=
  claim_C3_c99_discarded [("DW_LANG_C99", 5), ("DW_LANG_Rust", 5)]
    [("DW_LANG_Rust", 5)] (by decide) (by decide) (by decide)

/-- C4 counterexample: the claim says ties are resolved by first-seen
compilation-unit order and that the returned language always has the
greatest count. Both parts fail on the code. With counts C89 = 2,
Ada83 = 2 (first seen: C89), the iteration order that lists Ada83 first is
a permutation of the counts map and makes the classifier return Ada83, not
the first-seen C89. With counts C99 = 7, Rust = 1, the C99 discard rule
leaves only Rust, so the classifier returns a language whose count 1 is
not the greatest count 7. -/
theorem claim_C4_counterexample :
    (List.Perm [("DW_LANG_Ada83", 2), ("DW_LANG_C89", 2)]
        (removeC99 (buildCounts
          ["DW_LANG_C89", "DW_LANG_Ada83", "DW_LANG_C89", "DW_LANG_Ada83"]))
      ∧ analyze_elf_file [("DW_LANG_Ada83", 2), ("DW_LANG_C89", 2)]
          = "DW_LANG_Ada83"
      ∧ "DW_LANG_Ada83" ≠ "DW_LANG_C89")
    ∧ (List.Perm [("DW_LANG_Rust", 1)]
        (removeC99 (buildCounts
          (List.replicate 7 "DW_LANG_C99" ++ ["DW_LANG_Rust"])))
      ∧ ("DW_LANG_C99", 7) ∈ buildCounts
          (List.replicate 7 "DW_LANG_C99" ++ ["DW_LANG_Rust"])
      ∧ analyze_elf_file [("DW_LANG_Rust", 1)] = "DW_LANG_Rust"
      ∧ (7 : Nat) > 1) := by
  exact ⟨⟨by decide, by decide, by decide⟩,
    ⟨by decide, by decide, by decide, by decide⟩⟩

/-- C4 amended: the classifier returns a language value whose count is
maximal among the entries remaining after the C99/Rust discard rule; when
several entries share the maximal count, the one returned is determined by
the hash map's unspecified iteration order, not necessarily first-seen
compilation-unit order. -/
theorem claim_C4_majority (langs : List String) (iter : List (String × Nat))
    (hperm : iter.Perm (removeC99 (buildCounts langs)))
    (hne : iter ≠ []) :
    ∃ c, (analyze_elf_file iter, c) ∈ iter ∧ ∀ p ∈ iter, p.2 ≤ c := by
  have hpos : ∀ p ∈ iter, 1 ≤ p.2 := by
    intro p hp
    exact buildCounts_pos langs p (removeC99_subset p (hperm.mem_iff.mp hp))
  obtain ⟨hmem, hmax⟩ := selectMax_spec hne hpos
  refine ⟨(selectMax iter).2, ?_, hmax⟩
  have he : (analyze_elf_file iter, (selectMax iter).2) = selectMax iter := rfl
  rw [he]
  exact hmem

/-- Witness for the amended C4 at a concrete one-language binary. -/
theorem claim_C4_majority_witness :
    ∃ c, (analyze_elf_file [("DW_LANG_C89", 1)], c) ∈ [("DW_LANG_C89", 1)]
      ∧ ∀ p ∈ [("DW_LANG_C89", 1)], p.2 ≤ c :=
  claim_C4_majority ["DW_LANG_C89"] [("DW_LANG_C89", 1)] (by decide) (by decide)

/-- C5: when the debug metadata is parseable but no compilation unit
carries a language attribute, the counts map is empty, `analyze_elf_file`
returns the empty string, and `elf_analysis` fails with the
Language-not-found error. -/
theorem claim_C5_lang_not_found (inp : ElfInput) (iter : List (String × Nat))
    (dm : String → String → String)
    (cs : API → Bool → Except Err (List String))
    (sf : API → List String → String → Except Err Unit)
    (al : List String) (pa : String)
    (hstr : inp.stripped = false)
    (hlangs : inp.dwarfLangs = [])
    (hiter : iter.Perm (removeC99 (buildCounts inp.dwarfLangs))) :
    elf_analysis inp iter dm cs sf al pa = Except.error Err.LangNotFound := by
  rw [hlangs] at hiter
  have hnil : iter = [] := by
    have h0 : removeC99 (buildCounts ([] : List String)) = [] := rfl
    rw [h0] at hiter
    exact hiter.eq_nil
  subst hnil
  unfold elf_analysis
  rw [hstr]
  rfl

/-- Witness for C5 at a concrete unstripped input with no language
attributes. -/
theorem claim_C5_witness :
    elf_analysis (ElfInput.mk false [] [] (fun _ => (none : Option String))
        false false) [] (fun n _ => n) (fun _ _ => Except.ok [])
      (fun _ _ _ => Except.ok ()) [] ""
      = Except.error Err.LangNotFound :=
  claim_C5_lang_not_found _ _ _ _ _ _ _ rfl rfl (List.Perm.refl _)

/-- C1 amended: a per-function region-resolution failure is propagated by
the `?` operator out of the analysis loop: `elf_analysis` aborts with that
error instead of skipping the function, and the functions after the
failing one are never analyzed. -/
theorem claim_C1_region_error_aborts (inp : ElfInput)
    (iter : List (String × Nat)) (dm : String → String → String)
    (cs : API → Bool → Except Err (List String))
    (sf : API → List String → String → Except Err Unit)
    (al : List String) (pa : String) (lang : String)
    (pre post : List API) (f : API) (e : Err)
    (hstr : inp.stripped = false)
    (hlang : langTagRest (analyze_elf_file iter) = some lang)
    (hsplit : func_search (fun n => dm n lang) inp.strtab inp.syms
        = pre ++ f :: post)
    (hpre : ∀ g ∈ pre, ∃ s, cs g inp.link = Except.ok s
        ∧ sf g s lang = Except.ok ())
    (hf : cs f inp.link = Except.error e) :
    elf_analysis inp iter dm cs sf al pa = Except.error e := by
  unfold elf_analysis
  rw [hstr]
  simp only [Bool.false_eq_true, if_false]
  rw [hlang]
  show (if (func_search (fun n => dm n lang) inp.strtab inp.syms).isEmpty = true
      then Except.error Err.FuncListEmpty
      else analysisLoop (fun f => cs f inp.link) (fun f sys => sf f sys lang)
        (func_search (fun n => dm n lang) inp.strtab inp.syms))
    = Except.error e
  rw [hsplit]
  have hne : (pre ++ f :: post).isEmpty = false := by
    cases pre <;> rfl
  rw [hne]
  simp only [Bool.false_eq_true, if_false]
  exact analysisLoop_append_error hpre hf

/-- A two-function unstripped C89 input: function f at [100, 110) and
function g at [200, 210), where region resolution fails for f and would
succeed for g. -/
def c1Input : ElfInput :=
  ElfInput.mk false ["DW_LANG_C89"]
    [ElfSym.mk 2 1 0 100 10, ElfSym.mk 2 1 1 200 10]
    (fun n => if n = 0 then some "f" else if n = 1 then some "g" else none)
    true false

/-- A `code_section` stage that fails with a region-resolution error
exactly on the function at address 100. -/
def c1CS : API → Bool → Except Err (List String) :=
  fun f _ => if f.start_addr == 100 then Except.error Err.RegionResolution
    else Except.ok []

/-- A `syscall_flow` stage that always succeeds. -/
def c1SF : API → List String → String → Except Err Unit :=
  fun _ _ _ => Except.ok ()

/-- C1 counterexample: with two discovered functions f and g where region
resolution fails for f but would succeed for g, `elf_analysis` returns the
region-resolution error: the run is aborted instead of skipping f and
continuing with g, contradicting the claim. -/
theorem claim_C1_counterexample :
    elf_analysis c1Input [("DW_LANG_C89", 1)] (fun n _ => n) c1CS c1SF [] ""
        = Except.error Err.RegionResolution
    ∧ elf_analysis c1Input [("DW_LANG_C89", 1)] (fun n _ => n) c1CS c1SF [] ""
        ≠ Except.ok ()
    ∧ c1CS (API.mk "g" 200 210) true = Except.ok [] :=
  ⟨rfl, fun h => Except.noConfusion h, rfl⟩

/-- Witness for the amended C1 at the concrete two-function input. -/
theorem claim_C1_witness :
    elf_analysis c1Input [("DW_LANG_C89", 1)] (fun n _ => n) c1CS c1SF [] ""
        = Except.error Err.RegionResolution :=
  claim_C1_region_error_aborts c1Input [("DW_LANG_C89", 1)] (fun n _ => n)
    c1CS c1SF [] "" "C89" [] [API.mk "g" 200 210] (API.mk "f" 100 110)
    Err.RegionResolution rfl rfl rfl
    (by intro g hg; cases hg) rfl

/-- C6: function discovery produces exactly one descriptor, in
symbol-table order, for each symbol-table entry whose type is STT_FUNC,
whose section index is nonzero, and whose name resolves from the string
table (entries without a resolvable name are skipped), carrying the
demangled name and the half-open range [st_value, st_value + st_size). -/
theorem claim_C6_func_search_descriptors (dm : String → String)
    (strtab : Nat → Option String) (syms : List ElfSym) :
    func_search dm strtab syms =
      (syms.filter (fun s => s.st_type == STT_FUNC && s.st_shndx != 0 &&
          (get_name_sym strtab s).isSome)).map
        (fun s => API.mk (dm ((get_name_sym strtab s).getD ""))
          s.st_value (s.st_value + s.st_size)) :=
  func_search_eq_filter_map dm strtab syms

/-- C7: when function discovery yields an empty list, `elf_analysis`
aborts with the Empty-function-list error; the per-function stages,
universally quantified here, are never consulted. -/
theorem claim_C7_empty_function_list (inp : ElfInput)
    (iter : List (String × Nat)) (dm : String → String → String)
    (cs : API → Bool → Except Err (List String))
    (sf : API → List String → String → Except Err Unit)
    (al : List String) (pa : String) (lang : String)
    (hstr : inp.stripped = false)
    (hlang : langTagRest (analyze_elf_file iter) = some lang)
    (hempty : func_search (fun n => dm n lang) inp.strtab inp.syms = []) :
    elf_analysis inp iter dm cs sf al pa = Except.error Err.FuncListEmpty := by
  unfold elf_analysis
  rw [hstr]
  simp only [Bool.false_eq_true, if_false]
  rw [hlang]
  show (if (func_search (fun n => dm n lang) inp.strtab inp.syms).isEmpty = true
      then Except.error Err.FuncListEmpty
      else analysisLoop (fun f => cs f inp.link) (fun f sys => sf f sys lang)
        (func_search (fun n => dm n lang) inp.strtab inp.syms))
    = Except.error Err.FuncListEmpty
  rw [hempty]
  rfl

/-- Witness for C7 at a concrete input with an empty symbol table. -/
theorem claim_C7_witness :
    elf_analysis (ElfInput.mk false ["DW_LANG_C89"] []
        (fun _ => (none : Option String)) false false)
      [("DW_LANG_C89", 1)] (fun n _ => n) (fun _ _ => Except.ok [])
      (fun _ _ _ => Except.ok ()) [] ""
      = Except.error Err.FuncListEmpty :=
  claim_C7_empty_function_list _ _ _ _ _ _ _ "C89" rfl rfl rfl

/-- C8: `extract_api` returns the first discovered descriptor whose
canonical name contains the requested name as a substring, and `none`
exactly when no descriptor's name contains it; in particular requesting
"Lamp" against turnLampOn, turnLampOff, writeOnDrive yields turnLampOn,
the first lamp function in discovery order, and an unmatched request
yields `none`. -/
theorem claim_C8_extract_first_match (name : String) (l : List API) :
    extract_api name l = l.find? (fun api => strContains api.name name)
    ∧ (extract_api name l = none ↔
        ∀ api ∈ l, ¬ strContains api.name name)
    ∧ extract_api "Lamp"
        [API.mk "turnLampOn" 0 1, API.mk "turnLampOff" 1 2,
          API.mk "writeOnDrive" 2 3] = some (API.mk "turnLampOn" 0 1)
    ∧ extract_api "Webcam"
        [API.mk "turnLampOn" 0 1, API.mk "turnLampOff" 1 2,
          API.mk "writeOnDrive" 2 3] = none := by
  refine ⟨extract_api_eq_find name l, ?_, by decide, by decide⟩
  rw [extract_api_eq_find name l]
  exact List.find?_eq_none

/-- C9: a stripped binary makes `elf_analysis` fail with the
Stripped-binary error; the classifier order, the discovery inputs and the
per-function stages, all universally quantified here, are never
consulted. -/
theorem claim_C9_stripped_aborts (inp : ElfInput)
    (iter : List (String × Nat)) (dm : String → String → String)
    (cs : API → Bool → Except Err (List String))
    (sf : API → List String → String → Except Err Unit)
    (al : List String) (pa : String)
    (hstr : inp.stripped = true) :
    elf_analysis inp iter dm cs sf al pa = Except.error Err.DebugInfo := by
  unfold elf_analysis
  rw [hstr]
  rfl

/-- Witness for C9 at a concrete stripped input. -/
theorem claim_C9_witness :
    elf_analysis (ElfInput.mk true ["DW_LANG_C89"] []
        (fun _ => (none : Option String)) false false)
      [] (fun n _ => n) (fun _ _ => Except.ok [])
      (fun _ _ _ => Except.ok ()) [] ""
      = Except.error Err.DebugInfo :=
  claim_C9_stripped_aborts _ _ _ _ _ _ _ rfl

/-- C10: `elf_analysis` never reads its `api_list` and `path` arguments
(the API-matching and manifest-writing steps are commented out in the
source), so two runs that differ only in those arguments return the same
result. -/
theorem claim_C10_manifest_independent (inp : ElfInput)
    (iter : List (String × Nat)) (dm : String → String → String)
    (cs : API → Bool → Except Err (List String))
    (sf : API → List String → String → Except Err Unit)
    (al1 al2 : List String) (pa1 pa2 : String) :
    elf_analysis inp iter dm cs sf al1 pa1
      = elf_analysis inp iter dm cs sf al2 pa2 := rfl
